import Mathlib

/-!
Verification development for the country-catalog refresh service
(`src/main.py`, `src/schema.py`, `src/db.py`, `src/service.py`).

The refresh pipeline `refresh_countries` is embedded shallowly:

* Source records and the exchange-rate payload are explicit inductive data
  mirroring the JSON shapes the Python code inspects (`c.get("name")`,
  `c.get("currencies") or []`, `rates_data.get("rates")`, ...).
* Database state is a list of `Country` rows plus the single `Meta` value
  stored under the key `last_refreshed_at`.  The SQLAlchemy session of
  `db.py` is created with `autoflush=False`, so queries issued during the
  loop see only rows committed before the run: the embedding keeps pending
  inserts in a separate list that the lookup never consults.
* `random.randint(1000, 2000)` is modelled as an injected multiplier oracle
  `mult : Nat → Nat`, consulted only in the branch where the Python code
  draws (record position is used as the oracle index).
* Numeric values (Python ints/floats) are modelled as `Nat`/`ℚ`;
  `population` is a natural number (a count).  Python exceptions are
  modelled with `Except Unit`: `float(...)` failure and division by zero
  yield `estimated_gdp = None` via the inner `try`, while
  `rates.get(...)` on a non-mapping value raises out to the outer handler.
* Timestamps are abstract ticks (`Nat`); `isoformat` models
  `datetime.isoformat` as an injective rendering.
-/

/-- One element of a source record's `currencies` array; only the `code`
key is read by the pipeline (`first.get("code")`). -/
structure Currency where
  code : Option String := none
deriving DecidableEq, Repr

/-- A raw item of the countries payload, with the keys `refresh_countries`
reads.  `none` models an absent key (Python `c.get(k)` returning `None`).
A `none` inside the `currencies` list models a JSON `null` element
(`currencies[0] or {}`). -/
structure CountryRecord where
  name : Option String := none
  capital : Option String := none
  region : Option String := none
  population : Option Nat := none
  flag : Option String := none
  currencies : Option (List (Option Currency)) := none
deriving DecidableEq, Repr

/-- A value stored in the rate map: a numeric value (anything `float(...)`
accepts), or a value on which `float(...)` raises. -/
inductive RateEntry where
  | num (q : ℚ)
  | nonNum
deriving DecidableEq, Repr

/-- The value found under the `rates` key of the exchange-rate payload:
either a mapping (a JSON object, supporting `.get`) or some other value on
which `.get` raises `AttributeError`. -/
inductive RatesVal where
  | mapping (m : List (String × RateEntry))
  | nonMapping
deriving DecidableEq, Repr

/-- The whole exchange-rate payload.  `notDict` models a non-dict payload
(`isinstance(rates_data, dict)` fails); `dict none` models a dict whose
`rates` key is absent or holds JSON `null` (both make
`rates_data.get("rates")` return `None`). -/
inductive RatesData where
  | notDict
  | dict (ratesField : Option RatesVal)
deriving DecidableEq, Repr

/-- `rates = rates_data.get("rates") if isinstance(rates_data, dict) else None`
(src/main.py line 85). -/
def getRates : RatesData → Option RatesVal
  | .notDict => none
  | .dict f => f

/-- A persisted `Country` row (src/schema.py).  The surrogate `id` column is
represented by list position; `exchange_rate` stores the raw value taken
from the rate map. -/
structure Country where
  name : String
  capital : Option String := none
  region : Option String := none
  population : Nat := 0
  currency_code : Option String := none
  exchange_rate : Option RateEntry := none
  estimated_gdp : Option ℚ := none
  flag_url : Option String := none
  last_refreshed_at : Nat := 0
deriving DecidableEq, Repr

/-- The transient per-record values computed by the reconciliation loop
before the upsert (src/main.py lines 97-123). -/
structure Candidate where
  capital : Option String
  region : Option String
  population : Nat
  currency_code : Option String
  exchange_rate : Option RateEntry
  estimated_gdp : Option ℚ
  flag : Option String
deriving DecidableEq, Repr

/-- Lookup in the rate mapping, first match wins (Python `dict.get` with
unique keys). -/
def lookupRate : List (String × RateEntry) → String → Option RateEntry
  | [], _ => none
  | (k, v) :: rest, c => if k = c then some v else lookupRate rest c

/-- Derivation of one record's candidate values (src/main.py lines 94-123).
`m` is the multiplier the oracle would supply for this record.  Returns
`.ok none` when the record has a falsy name (skipped), `.error ()` when
the Python code would raise inside the transactional `try` block
(`rates.get` on a non-mapping `rates` value). -/
def mkCandidate (rv : RatesVal) (m : Nat) (c : CountryRecord) :
    Except Unit (Option (String × Candidate)) :=
  match c.name with
  | none => .ok none
  | some n =>
    if n = "" then .ok none
    else
      let population := c.population.getD 0
      let base : Candidate :=
        { capital := c.capital, region := c.region, population := population,
          currency_code := none, exchange_rate := none, estimated_gdp := none,
          flag := c.flag }
      match c.currencies.getD [] with
      | [] => .ok (some (n, { base with estimated_gdp := some 0 }))
      | f :: _ =>
        match (f.getD {}).code with
        | none => .ok (some (n, { base with estimated_gdp := some 0 }))
        | some s =>
          if s = "" then
            .ok (some (n, { base with currency_code := some s, estimated_gdp := some 0 }))
          else
            match rv with
            | .nonMapping => .error ()
            | .mapping rm =>
              match lookupRate rm s with
              | none =>
                .ok (some (n, { base with currency_code := some s, estimated_gdp := none }))
              | some e =>
                let gdp : Option ℚ :=
                  match e with
                  | .nonNum => none
                  | .num q => if q = 0 then none else some ((population : ℚ) * (m : ℚ) / q)
                .ok (some (n, { base with
                                currency_code := some s,
                                exchange_rate := some e,
                                estimated_gdp := gdp }))

/-- Case-insensitive key of a name (`name.lower()`): the string with every
character lowercased, written over the character list so that it evaluates
by kernel reduction. -/
def ciKey (s : String) : String := String.mk (s.data.map Char.toLower)

/-- New row built by the insert branch (src/main.py lines 137-148). -/
def newCountry (n : String) (cand : Candidate) (now : Nat) : Country :=
  { name := n, capital := cand.capital, region := cand.region,
    population := cand.population, currency_code := cand.currency_code,
    exchange_rate := cand.exchange_rate, estimated_gdp := cand.estimated_gdp,
    flag_url := cand.flag, last_refreshed_at := now }

/-- In-place overwrite of an existing row (src/main.py lines 128-135);
the `name` column is not reassigned. -/
def overwrite (r : Country) (cand : Candidate) (now : Nat) : Country :=
  { r with
    capital := cand.capital, region := cand.region,
    population := cand.population, currency_code := cand.currency_code,
    exchange_rate := cand.exchange_rate, estimated_gdp := cand.estimated_gdp,
    flag_url := cand.flag, last_refreshed_at := now }

/-- Replace the first row whose lowercased name equals `key` by its image
under `g`; `none` when no row matches.  This is the
`query(...).filter(func.lower(Country.name) == name.lower()).first()`
lookup followed by the in-place update. -/
def applyFirst (key : String) (g : Country → Country) : List Country → Option (List Country)
  | [] => none
  | r :: rest =>
    if ciKey r.name = key then some (g r :: rest)
    else (applyFirst key g rest).map (r :: ·)

/-- First row whose lowercased name equals `key` (the same lookup, used to
state properties). -/
def findCi (key : String) : List Country → Option Country
  | [] => none
  | r :: rest => if ciKey r.name = key then some r else findCi key rest

/-- Mutable state of one refresh run: `cur` is the committed table with
in-place updates applied, `inserts` are rows pending insertion (invisible
to the lookup because the session has `autoflush=False`), `processed` is
the running counter. -/
structure RunState where
  cur : List Country
  inserts : List Country
  processed : Nat
deriving DecidableEq, Repr

/-- One iteration of the reconciliation loop (src/main.py lines 93-149). -/
def step (rv : RatesVal) (now : Nat) (m : Nat) (st : RunState) (c : CountryRecord) :
    Except Unit RunState :=
  match mkCandidate rv m c with
  | .error _ => .error ()
  | .ok none => .ok st
  | .ok (some (n, cand)) =>
    match applyFirst (ciKey n) (fun r => overwrite r cand now) st.cur with
    | some cur' => .ok { st with cur := cur', processed := st.processed + 1 }
    | none => .ok { st with inserts := st.inserts ++ [newCountry n cand now],
                            processed := st.processed + 1 }

/-- The whole loop; `i` is the record position used to index the
multiplier oracle. -/
def runLoop (rv : RatesVal) (now : Nat) (mult : Nat → Nat) :
    Nat → RunState → List CountryRecord → Except Unit RunState
  | _, st, [] => .ok st
  | i, st, c :: cs =>
    match step rv now (mult i) st c with
    | .error _ => .error ()
    | .ok st' => runLoop rv now mult (i + 1) st' cs

/-- Is some row's `name` column exactly `n` (case-sensitive, as the unique
constraint of src/schema.py line 21)? -/
def containsName (l : List Country) (n : String) : Bool :=
  l.any (fun r => r.name = n)

/-- `db.commit()` accepts the pending inserts iff each inserted name
collides neither with a committed row nor with another pending insert
under the case-sensitive unique constraint on `name`. -/
def insertsOk (cur : List Country) : List Country → Bool
  | [] => true
  | r :: rest =>
    !containsName cur r.name && !containsName rest r.name && insertsOk cur rest

/-- The transactional write phase: the per-country loop followed by the
commit-time unique check.  `.error ()` stands for any exception caught by
the `except` handler of src/main.py lines 160-162. -/
def writePhase (rv : RatesVal) (now : Nat) (mult : Nat → Nat) (db : List Country)
    (cs : List CountryRecord) : Except Unit (Nat × List Country) :=
  match runLoop rv now mult 0 ⟨db, [], 0⟩ cs with
  | .error _ => .error ()
  | .ok st =>
    if insertsOk st.cur st.inserts then .ok (st.processed, st.cur ++ st.inserts)
    else .error ()

/-- Persistent state: the `countries` table and the `Meta` value stored
under the key `last_refreshed_at`. -/
structure DBState where
  countries : List Country
  meta : Option String
deriving DecidableEq, Repr

/-- Outcome of a refresh call: the three 503 responses, the generic 500
after rollback, or the success body `{"success": True, "processed": ...,
"last_refreshed_at": ...}`. -/
inductive RefreshResult where
  | countriesUnavailable
  | ratesUnavailable
  | invalidRates
  | internalError
  | ok (processed : Nat) (last_refreshed_at : String)
deriving DecidableEq, Repr

/-- Models `now.isoformat()`: an injective rendering of the abstract
timestamp. -/
def isoformat (t : Nat) : String := toString t

/-- The refresh endpoint (src/main.py lines 73-162, before the image
step).  `okC`/`okR` are the success flags returned by
`service.fetch_countries` / `service.fetch_exchange_rates`; on any
failure of the write phase the transaction is rolled back and the
original state returned unchanged. -/
def refresh_countries (st : DBState) (okC : Bool) (countriesData : List CountryRecord)
    (okR : Bool) (ratesData : RatesData) (mult : Nat → Nat) (now : Nat) :
    RefreshResult × DBState :=
  if !okC then (.countriesUnavailable, st)
  else if !okR then (.ratesUnavailable, st)
  else
    match getRates ratesData with
    | none => (.invalidRates, st)
    | some rv =>
      match writePhase rv now mult st.countries countriesData with
      | .error _ => (.internalError, st)
      | .ok (p, rows) => (.ok p (isoformat now), ⟨rows, some (isoformat now)⟩)

/-! ### The summary artifact (src/main.py lines 164-198 and 248-294) -/

/-- The information rendered onto the cached summary image: total row
count, the last-refresh line, and the top-5 ranking. -/
structure Artifact where
  total : Nat
  last_refresh : Option String
  top : List (String × ℚ)
deriving DecidableEq, Repr

/-- Value used to order rows (rows with `estimated_gdp` null are filtered
out before sorting). -/
def gdpVal (r : Country) : ℚ := r.estimated_gdp.getD 0

/-- Insertion into a list sorted by `estimated_gdp` descending. -/
def insertByGdpDesc (r : Country) : List Country → List Country
  | [] => [r]
  | x :: xs => if gdpVal x < gdpVal r then r :: x :: xs else x :: insertByGdpDesc r xs

/-- Sort by `estimated_gdp` descending (`order_by(Country.estimated_gdp.desc())`). -/
def sortByGdpDesc : List Country → List Country
  | [] => []
  | x :: xs => insertByGdpDesc x (sortByGdpDesc xs)

/-- `filter(Country.estimated_gdp != None).order_by(desc).limit(5)`. -/
def top5 (rows : List Country) : List (String × ℚ) :=
  ((sortByGdpDesc (rows.filter (fun r => r.estimated_gdp.isSome))).take 5).map
    (fun r => (r.name, gdpVal r))

/-- Render the summary artifact from the given rows and last-refresh line. -/
def summaryImage (rows : List Country) (ts : Option String) : Artifact :=
  { total := rows.length, last_refresh := ts, top := top5 rows }

/-- The refresh endpoint including the best-effort image step.  `renderOk`
models whether the PIL rendering and file write succeed; on failure the
previous cached artifact (if any) is kept and the refresh outcome is
unaffected (src/main.py lines 164-198). -/
def refresh_countries_full (st : DBState) (okC : Bool) (countriesData : List CountryRecord)
    (okR : Bool) (ratesData : RatesData) (mult : Nat → Nat) (now : Nat)
    (renderOk : Bool) (artifact : Option Artifact) :
    RefreshResult × DBState × Option Artifact :=
  match refresh_countries st okC countriesData okR ratesData mult now with
  | (.ok p s, st') =>
    (.ok p s, st', if renderOk then some (summaryImage st'.countries (some s)) else artifact)
  | (r, st') => (r, st', artifact)

/-- Outcome of `GET /countries/image`: the file, or the 404 JSON body
`{"error": "Summary image not found"}`. -/
inductive ImageResult where
  | file (a : Artifact)
  | notFound
deriving DecidableEq, Repr

/-- `get_image` (src/main.py lines 248-294): serve the cached artifact if
present, else generate on demand; any generation failure is answered with
the 404 body, never an internal error. -/
def get_image (st : DBState) (artifact : Option Artifact) (renderOk : Bool) :
    ImageResult × Option Artifact :=
  match artifact with
  | some a => (.file a, some a)
  | none =>
    if renderOk then
      let a := summaryImage st.countries st.meta
      (.file a, some a)
    else (.notFound, none)

/-! ### Derived notions used by the statements -/

/-- Python truthiness of the record's `name` (line 95: `if not name`). -/
def hasName (c : CountryRecord) : Bool :=
  match c.name with
  | none => false
  | some n => !(n = "")

/-- The record's name when truthy. -/
def recName (c : CountryRecord) : Option String :=
  match c.name with
  | none => none
  | some n => if n = "" then none else some n

/-- Lowercased names of the named records of a payload, in order. -/
def namesCi : List CountryRecord → List String
  | [] => []
  | c :: cs =>
    match recName c with
    | some n => ciKey n :: namesCi cs
    | none => namesCi cs

/-- The columns claim C5 compares across runs (plus `name`). -/
def sig (r : Country) : String × Option String × Option String × Nat × Option String :=
  (r.name, r.capital, r.region, r.population, r.currency_code)

/-- The multiplier-independent candidate columns. -/
def candSig (cd : Candidate) : Option String × Option String × Nat × Option String :=
  (cd.capital, cd.region, cd.population, cd.currency_code)

/-- Does the rate payload expose a mapping under the `rates` field? -/
def exposesMapping (rd : RatesData) : Bool :=
  match getRates rd with
  | some (.mapping _) => true
  | _ => false

/-- Python truthiness of an optional string (`if not currency_code`). -/
def falsyStr : Option String → Bool
  | none => true
  | some s => s = ""

/-! ### Basic lemmas about the per-record derivation -/

theorem mkCandidate_of_not_hasName {c : CountryRecord} (rv : RatesVal) (m : Nat)
    (h : hasName c = false) : mkCandidate rv m c = .ok none := by
  unfold mkCandidate
  unfold hasName at h
  cases hn : c.name with
  | none => rfl
  | some n =>
    rw [hn] at h
    simp only [Bool.not_eq_false'] at h
    simp only [decide_eq_true_eq] at h
    simp [h]

theorem mkCandidate_ok_none_hasName {rv : RatesVal} {m : Nat} {c : CountryRecord}
    (h : mkCandidate rv m c = .ok none) : hasName c = false := by
  unfold mkCandidate at h
  unfold hasName
  cases hn : c.name with
  | none => rfl
  | some n =>
    rw [hn] at h
    by_cases he : n = ""
    · simp [he]
    · exfalso
      simp only [he, if_false] at h
      revert h
      split <;> try simp
      split <;> try simp
      split <;> try simp
      split <;> try simp
      split <;> simp

theorem mkCandidate_ok_some_recName {rv : RatesVal} {m : Nat} {c : CountryRecord}
    {n : String} {cand : Candidate}
    (h : mkCandidate rv m c = .ok (some (n, cand))) : recName c = some n := by
  unfold mkCandidate at h
  unfold recName
  cases hn : c.name with
  | none => rw [hn] at h; exact absurd h (by simp)
  | some n' =>
    rw [hn] at h
    simp only at h
    by_cases he : n' = ""
    · rw [if_pos he] at h; exact absurd h (by simp)
    · rw [if_neg he] at h
      simp only [if_neg he]
      repeat' split at h
      all_goals simp_all

theorem mkCandidate_ok_some_hasName {rv : RatesVal} {m : Nat} {c : CountryRecord}
    {x : String × Candidate}
    (h : mkCandidate rv m c = .ok (some x)) : hasName c = true := by
  obtain ⟨n, cand⟩ := x
  have h' := mkCandidate_ok_some_recName h
  unfold recName at h'
  unfold hasName
  cases hn : c.name with
  | none => rw [hn] at h'; exact absurd h' (by simp)
  | some n' =>
    rw [hn] at h'
    simp only at h'
    by_cases he : n' = ""
    · rw [if_pos he] at h'; exact absurd h' (by simp)
    · simp [he]

/-! ### Lemmas about `applyFirst` and `findCi` -/

theorem applyFirst_mem {key : String} {g : Country → Country} {l l' : List Country}
    (h : applyFirst key g l = some l') :
    ∀ x ∈ l', x ∈ l ∨ ∃ y, x = g y := by
  induction l generalizing l' with
  | nil => simp [applyFirst] at h
  | cons r rest ih =>
    unfold applyFirst at h
    by_cases hk : ciKey r.name = key
    · rw [if_pos hk] at h
      injection h with h
      subst h
      intro x hx
      rcases List.mem_cons.mp hx with hx | hx
      · exact Or.inr ⟨r, hx⟩
      · exact Or.inl (List.mem_cons_of_mem _ hx)
    · rw [if_neg hk] at h
      cases hrec : applyFirst key g rest with
      | none => rw [hrec] at h; exact absurd h (by simp)
      | some rest' =>
        rw [hrec] at h
        injection h with h
        subst h
        intro x hx
        rcases List.mem_cons.mp hx with hx | hx
        · exact Or.inl (by simp [hx])
        · rcases ih hrec x hx with hx' | hx'
          · exact Or.inl (List.mem_cons_of_mem _ hx')
          · exact Or.inr hx'

theorem applyFirst_names {key : String} {g : Country → Country} {l l' : List Country}
    (h : applyFirst key g l = some l') (hg : ∀ x, (g x).name = x.name) :
    l'.map (fun r => r.name) = l.map (fun r => r.name) := by
  induction l generalizing l' with
  | nil => simp [applyFirst] at h
  | cons r rest ih =>
    unfold applyFirst at h
    by_cases hk : ciKey r.name = key
    · rw [if_pos hk] at h
      injection h with h
      subst h
      simp [hg]
    · rw [if_neg hk] at h
      cases hrec : applyFirst key g rest with
      | none => rw [hrec] at h; exact absurd h (by simp)
      | some rest' =>
        rw [hrec] at h
        injection h with h
        subst h
        simp [ih hrec]

theorem applyFirst_none_iff_findCi {key : String} {g : Country → Country} {l : List Country} :
    applyFirst key g l = none ↔ findCi key l = none := by
  induction l with
  | nil => simp [applyFirst, findCi]
  | cons r rest ih =>
    unfold applyFirst findCi
    by_cases hk : ciKey r.name = key
    · simp [hk]
    · simp only [if_neg hk]
      cases hrec : applyFirst key g rest with
      | none => simp [Option.map_none, ← ih, hrec]
      | some rest' => simp [hrec, ← ih, Option.map_some]

theorem applyFirst_findCi {key : String} {g : Country → Country} {l l' : List Country}
    (h : applyFirst key g l = some l') (hg : ∀ x, (g x).name = x.name) :
    ∃ r, findCi key l = some r ∧ findCi key l' = some (g r) := by
  induction l generalizing l' with
  | nil => simp [applyFirst] at h
  | cons r rest ih =>
    unfold applyFirst at h
    by_cases hk : ciKey r.name = key
    · rw [if_pos hk] at h
      injection h with h
      subst h
      refine ⟨r, by simp [findCi, hk], ?_⟩
      unfold findCi
      rw [hg, if_pos hk]
    · rw [if_neg hk] at h
      cases hrec : applyFirst key g rest with
      | none => rw [hrec] at h; exact absurd h (by simp)
      | some rest' =>
        rw [hrec] at h
        injection h with h
        subst h
        obtain ⟨x, hx1, hx2⟩ := ih hrec
        exact ⟨x, by simp [findCi, if_neg hk, hx1], by simp [findCi, if_neg hk, hx2]⟩

theorem findCi_append {key : String} {l1 l2 : List Country} :
    findCi key (l1 ++ l2) = (findCi key l1).or (findCi key l2) := by
  induction l1 with
  | nil => simp [findCi]
  | cons r rest ih =>
    by_cases hk : ciKey r.name = key
    · simp [findCi, hk]
    · simp [findCi, hk, ih]

theorem findCi_none_of_no_match {key : String} {l : List Country}
    (h : ∀ r ∈ l, ciKey r.name ≠ key) : findCi key l = none := by
  induction l with
  | nil => rfl
  | cons r rest ih =>
    unfold findCi
    rw [if_neg (h r (by simp))]
    exact ih (fun x hx => h x (List.mem_cons_of_mem _ hx))

/-! ### Lemmas about the reconciliation loop -/

theorem overwrite_name (r : Country) (cand : Candidate) (now : Nat) :
    (overwrite r cand now).name = r.name := rfl

theorem step_processed {rv : RatesVal} {now m : Nat} {st st' : RunState} {c : CountryRecord}
    (h : step rv now m st c = .ok st') :
    st'.processed = st.processed + (if hasName c then 1 else 0) := by
  unfold step at h
  cases hmk : mkCandidate rv m c with
  | error e => rw [hmk] at h; exact absurd h (by simp)
  | ok o =>
    rw [hmk] at h
    cases o with
    | none =>
      simp only at h
      injection h with h
      subst h
      simp [mkCandidate_ok_none_hasName hmk]
    | some x =>
      obtain ⟨n, cand⟩ := x
      simp only at h
      rw [if_pos (mkCandidate_ok_some_hasName (x := (n, cand)) hmk)]
      cases hap : applyFirst (ciKey n) (fun r => overwrite r cand now) st.cur with
      | none => rw [hap] at h; injection h with h; subst h; rfl
      | some cur' => rw [hap] at h; injection h with h; subst h; rfl

theorem step_cur_names {rv : RatesVal} {now m : Nat} {st st' : RunState} {c : CountryRecord}
    (h : step rv now m st c = .ok st') :
    st'.cur.map (fun r => r.name) = st.cur.map (fun r => r.name) := by
  unfold step at h
  cases hmk : mkCandidate rv m c with
  | error e => rw [hmk] at h; exact absurd h (by simp)
  | ok o =>
    rw [hmk] at h
    cases o with
    | none => simp only at h; injection h with h; subst h; rfl
    | some x =>
      obtain ⟨n, cand⟩ := x
      simp only at h
      cases hap : applyFirst (ciKey n) (fun r => overwrite r cand now) st.cur with
      | none => rw [hap] at h; injection h with h; subst h; rfl
      | some cur' =>
        rw [hap] at h
        injection h with h
        subst h
        exact applyFirst_names hap (fun x => rfl)

theorem step_rows {rv : RatesVal} {now m : Nat} {st st' : RunState} {c : CountryRecord}
    (h : step rv now m st c = .ok st') :
    (∀ r ∈ st'.cur, r ∈ st.cur ∨ r.last_refreshed_at = now) ∧
    (∀ r ∈ st'.inserts, r ∈ st.inserts ∨ r.last_refreshed_at = now) := by
  unfold step at h
  cases hmk : mkCandidate rv m c with
  | error e => rw [hmk] at h; exact absurd h (by simp)
  | ok o =>
    rw [hmk] at h
    cases o with
    | none =>
      simp only at h
      injection h with h
      subst h
      exact ⟨fun r hr => Or.inl hr, fun r hr => Or.inl hr⟩
    | some x =>
      obtain ⟨n, cand⟩ := x
      simp only at h
      cases hap : applyFirst (ciKey n) (fun r => overwrite r cand now) st.cur with
      | none =>
        rw [hap] at h
        injection h with h
        subst h
        refine ⟨fun r hr => Or.inl hr, fun r hr => ?_⟩
        simp only [List.mem_append, List.mem_singleton] at hr
        rcases hr with hr | hr
        · exact Or.inl hr
        · subst hr; exact Or.inr rfl
      | some cur' =>
        rw [hap] at h
        injection h with h
        subst h
        refine ⟨fun r hr => ?_, fun r hr => Or.inl hr⟩
        rcases applyFirst_mem hap r hr with hr' | ⟨y, hy⟩
        · exact Or.inl hr'
        · subst hy; exact Or.inr rfl

theorem runLoop_processed {rv : RatesVal} {now : Nat} {mult : Nat → Nat}
    {cs : List CountryRecord} {i : Nat} {st st' : RunState}
    (h : runLoop rv now mult i st cs = .ok st') :
    st'.processed = st.processed + (cs.filter (fun c => hasName c)).length := by
  induction cs generalizing i st with
  | nil => unfold runLoop at h; injection h with h; subst h; simp
  | cons c cs ih =>
    unfold runLoop at h
    cases hstep : step rv now (mult i) st c with
    | error e => rw [hstep] at h; exact absurd h (by simp)
    | ok st1 =>
      rw [hstep] at h
      have h1 := step_processed hstep
      have h2 := ih h
      rw [h2, h1]
      by_cases hc : hasName c
      · simp [hc, List.filter_cons]
        omega
      · simp [hc, List.filter_cons]

theorem runLoop_cur_names {rv : RatesVal} {now : Nat} {mult : Nat → Nat}
    {cs : List CountryRecord} {i : Nat} {st st' : RunState}
    (h : runLoop rv now mult i st cs = .ok st') :
    st'.cur.map (fun r => r.name) = st.cur.map (fun r => r.name) := by
  induction cs generalizing i st with
  | nil => unfold runLoop at h; injection h with h; subst h; rfl
  | cons c cs ih =>
    unfold runLoop at h
    cases hstep : step rv now (mult i) st c with
    | error e => rw [hstep] at h; exact absurd h (by simp)
    | ok st1 =>
      rw [hstep] at h
      rw [ih h, step_cur_names hstep]

theorem runLoop_rows {rv : RatesVal} {now : Nat} {mult : Nat → Nat}
    {cs : List CountryRecord} {i : Nat} {st st' : RunState}
    (h : runLoop rv now mult i st cs = .ok st') :
    (∀ r ∈ st'.cur, r ∈ st.cur ∨ r.last_refreshed_at = now) ∧
    (∀ r ∈ st'.inserts, r ∈ st.inserts ∨ r.last_refreshed_at = now) := by
  induction cs generalizing i st with
  | nil =>
    unfold runLoop at h
    injection h with h
    subst h
    exact ⟨fun r hr => Or.inl hr, fun r hr => Or.inl hr⟩
  | cons c cs ih =>
    unfold runLoop at h
    cases hstep : step rv now (mult i) st c with
    | error e => rw [hstep] at h; exact absurd h (by simp)
    | ok st1 =>
      rw [hstep] at h
      obtain ⟨hc1, hi1⟩ := step_rows hstep
      obtain ⟨hc2, hi2⟩ := ih h
      refine ⟨fun r hr => ?_, fun r hr => ?_⟩
      · rcases hc2 r hr with hr' | hr'
        · exact hc1 r hr'
        · exact Or.inr hr'
      · rcases hi2 r hr with hr' | hr'
        · exact hi1 r hr'
        · exact Or.inr hr'

/-- Inversion of a successful refresh into its pipeline stages. -/
theorem refresh_ok_inv {st : DBState} {okC okR : Bool} {cd : List CountryRecord}
    {rd : RatesData} {mult : Nat → Nat} {now : Nat} {p : Nat} {s : String} {st' : DBState}
    (h : refresh_countries st okC cd okR rd mult now = (.ok p s, st')) :
    okC = true ∧ okR = true ∧
    ∃ rv stf, getRates rd = some rv ∧
      runLoop rv now mult 0 ⟨st.countries, [], 0⟩ cd = .ok stf ∧
      insertsOk stf.cur stf.inserts = true ∧
      p = stf.processed ∧ s = isoformat now ∧
      st' = ⟨stf.cur ++ stf.inserts, some (isoformat now)⟩ := by
  unfold refresh_countries at h
  cases okC with
  | false => exact absurd h (by simp)
  | true =>
    cases okR with
    | false => exact absurd h (by simp)
    | true =>
      simp only [Bool.not_true, Bool.false_eq_true, if_false] at h
      refine ⟨rfl, rfl, ?_⟩
      cases hg : getRates rd with
      | none => rw [hg] at h; exact absurd h (by simp)
      | some rv =>
        rw [hg] at h
        simp only at h
        unfold writePhase at h
        cases hrun : runLoop rv now mult 0 ⟨st.countries, [], 0⟩ cd with
        | error e =>
          simp only [hrun] at h
          exact absurd h (by simp)
        | ok stf =>
          simp only [hrun] at h
          by_cases hins : insertsOk stf.cur stf.inserts = true
          · rw [if_pos hins] at h
            simp only [Prod.mk.injEq, RefreshResult.ok.injEq] at h
            obtain ⟨⟨hp, hs⟩, hst⟩ := h
            exact ⟨rv, stf, rfl, hrun, hins, hp.symm, hs.symm, hst.symm⟩
          · rw [if_neg hins] at h
            simp only at h
            exact absurd h (by simp)

/-! ### Concrete sample data used by witnesses and counterexamples -/

/-- A named record with a currency code, forcing a rate-map lookup. -/
def sampleUSD : CountryRecord :=
  { name := some "A", currencies := some [some { code := some "USD" }] }

/-- A named record with a capital and no currency data. -/
def sampleNoCur (n cap : String) : CountryRecord :=
  { name := some n, capital := some cap }

/-- A constant multiplier oracle. -/
def sampleMult : Nat → Nat := fun _ => 1000

/-! ### Claim theorems -/

/-- C3: any exception during the transactional write phase (the per-country
upserts and the Meta write) rolls the whole transaction back: the returned
state is exactly the pre-run state (zero Country rows committed, Meta
unchanged) and the run is reported as the single generic internal
failure. -/
theorem C3_write_failure_rolls_back (st : DBState) (cs : List CountryRecord)
    (rd : RatesData) (rv : RatesVal) (mult : Nat → Nat) (t : Nat)
    (hrv : getRates rd = some rv)
    (herr : writePhase rv t mult st.countries cs = .error ()) :
    refresh_countries st true cs true rd mult t = (.internalError, st) := by
  unfold refresh_countries
  simp [hrv, herr]

/-- Witness for C3 at a concrete input: the rates field holds a
non-mapping value and a record forces a lookup, so the write phase raises;
the refresh reports the internal failure and leaves the state untouched. -/
theorem C3_write_failure_rolls_back_witness :
    refresh_countries ⟨[], none⟩ true [sampleUSD] true (.dict (some .nonMapping))
      sampleMult 0 = (.internalError, ⟨[], none⟩) :=
  C3_write_failure_rolls_back ⟨[], none⟩ [sampleUSD] (.dict (some .nonMapping))
    .nonMapping sampleMult 0 rfl rfl

/-- C4 counterexample: the payload `{"rates": <non-mapping>}` does not
expose a mapping under the `rates` field, yet the refresh does not abort:
with a record that needs no rate lookup it commits a Country row and the
Meta update and reports success, contradicting "aborts before any Country
or Meta write". -/
theorem C4_counterexample :
    exposesMapping (.dict (some .nonMapping)) = false ∧
    refresh_countries ⟨[], none⟩ true [{ name := some "Foo" }] true
      (.dict (some .nonMapping)) sampleMult 0 =
      (.ok 1 "0", ⟨[⟨"Foo", none, none, 0, none, none, some 0, none, 0⟩], some "0"⟩) :=
  ⟨rfl, rfl⟩

/-- C4 (amended): the refresh aborts up front — reported as the
upstream-source failure, before any Country or Meta write — exactly when
`rates_data.get("rates")` yields `None` (payload not a dict, `rates` key
absent, or `rates` value null).  A `rates` field holding a non-mapping
value passes this validation and does not trigger the upstream-failure
abort. -/
theorem C4_amended_abort_iff_rates_none (st : DBState) (cs : List CountryRecord)
    (rd : RatesData) (mult : Nat → Nat) (t : Nat) (h : getRates rd = none) :
    refresh_countries st true cs true rd mult t = (.invalidRates, st) := by
  unfold refresh_countries
  simp [h]

/-- Witness for the amended C4 at a concrete input. -/
theorem C4_amended_abort_iff_rates_none_witness :
    refresh_countries ⟨[], none⟩ true [sampleUSD] true .notDict sampleMult 0 =
      (.invalidRates, ⟨[], none⟩) :=
  C4_amended_abort_iff_rates_none ⟨[], none⟩ [sampleUSD] .notDict sampleMult 0 rfl

/-- C7: the processed count reported by a successful refresh equals the
number of source records with a truthy name; unnamed records are skipped
silently and not counted. -/
theorem C7_processed_counts_named (st : DBState) (cs : List CountryRecord)
    (rd : RatesData) (mult : Nat → Nat) (t p : Nat) (s : String) (st' : DBState)
    (h : refresh_countries st true cs true rd mult t = (.ok p s, st')) :
    p = (cs.filter (fun c => hasName c)).length := by
  obtain ⟨-, -, rv, stf, -, hrun, -, hp, -, -⟩ := refresh_ok_inv h
  rw [hp, runLoop_processed hrun]
  simp

/-- Witness for C7 at a concrete input: one named record, one unnamed
record (skipped, batch not aborted), processed count 1. -/
theorem C7_processed_counts_named_witness :
    1 = (([sampleNoCur "Foo" "X", { name := none }] : List CountryRecord).filter
      (fun c => hasName c)).length :=
  C7_processed_counts_named ⟨[], none⟩ [sampleNoCur "Foo" "X", { name := none }]
    (.dict (some (.mapping []))) sampleMult 0 1 "0"
    ⟨[⟨"Foo", some "X", none, 0, none, none, some 0, none, 0⟩], some "0"⟩ rfl

/-- C8: after a successful refresh, the reported timestamp and the Meta
value under `last_refreshed_at` are the ISO rendering of the run's single
`now`, and every row that the run inserted or updated (that is, every row
of the final table that is not an untouched pre-run row) carries that same
`now` in `last_refreshed_at`. -/
theorem C8_meta_matches_row_timestamps (st : DBState) (cs : List CountryRecord)
    (rd : RatesData) (mult : Nat → Nat) (t p : Nat) (s : String) (st' : DBState)
    (h : refresh_countries st true cs true rd mult t = (.ok p s, st')) :
    s = isoformat t ∧ st'.meta = some (isoformat t) ∧
    ∀ r ∈ st'.countries, r ∈ st.countries ∨ r.last_refreshed_at = t := by
  obtain ⟨-, -, rv, stf, -, hrun, -, -, hs, hst⟩ := refresh_ok_inv h
  subst hst
  refine ⟨hs, rfl, ?_⟩
  obtain ⟨hc, hi⟩ := runLoop_rows hrun
  intro r hr
  rcases List.mem_append.mp hr with hr | hr
  · exact hc r hr
  · rcases hi r hr with h' | h'
    · exact absurd h' (by simp)
    · exact Or.inr h'

/-- Witness for C8 at a concrete input. -/
theorem C8_meta_matches_row_timestamps_witness :
    "7" = isoformat 7 ∧
    (⟨[⟨"Foo", some "X", none, 0, none, none, some 0, none, 7⟩], some "7"⟩ : DBState).meta =
      some (isoformat 7) ∧
    ∀ r ∈ (⟨[⟨"Foo", some "X", none, 0, none, none, some 0, none, 7⟩], some "7"⟩ : DBState).countries,
      r ∈ (⟨[], none⟩ : DBState).countries ∨ r.last_refreshed_at = 7 :=
  C8_meta_matches_row_timestamps ⟨[], none⟩ [sampleNoCur "Foo" "X"]
    (.dict (some (.mapping []))) sampleMult 7 1 "7"
    ⟨[⟨"Foo", some "X", none, 0, none, none, some 0, none, 7⟩], some "7"⟩ rfl

/-- C9: a failure while rendering or storing the summary artifact after a
successful commit is swallowed — the refresh still reports the same
success, count, timestamp and state for any render outcome; and the
on-demand image path with no cached artifact answers a failed generation
with the not-found result instead of an internal failure. -/
theorem C9_artifact_failures_swallowed (st : DBState) (okC : Bool)
    (cd : List CountryRecord) (okR : Bool) (rd : RatesData) (mult : Nat → Nat)
    (t p : Nat) (s : String) (st' st2 : DBState) (renderOk : Bool) (art : Option Artifact) :
    (refresh_countries st okC cd okR rd mult t = (.ok p s, st') →
      ∃ a, refresh_countries_full st okC cd okR rd mult t renderOk art = (.ok p s, st', a)) ∧
    get_image st2 none false = (.notFound, none) := by
  constructor
  · intro h
    unfold refresh_countries_full
    rw [h]
    exact ⟨if renderOk = true then some (summaryImage st'.countries (some s)) else art, rfl⟩
  · rfl

/-- Witness for C9 at a concrete input: a refresh over an empty payload
succeeds; with rendering failing (`renderOk = false`) the reported outcome
and state are unchanged, and `get_image` yields not-found. -/
theorem C9_artifact_failures_swallowed_witness :
    (∃ a, refresh_countries_full ⟨[], none⟩ true [] true (.dict (some (.mapping [])))
      sampleMult 0 false none = (.ok 0 "0", ⟨[], some "0"⟩, a)) ∧
    get_image ⟨[], none⟩ none false = (.notFound, none) :=
  ⟨(C9_artifact_failures_swallowed ⟨[], none⟩ true [] true (.dict (some (.mapping [])))
      sampleMult 0 0 "0" ⟨[], some "0"⟩ ⟨[], none⟩ false none).1 rfl,
   (C9_artifact_failures_swallowed ⟨[], none⟩ true [] true (.dict (some (.mapping [])))
      sampleMult 0 0 "0" ⟨[], some "0"⟩ ⟨[], none⟩ false none).2⟩

/-- C10: with `autoflush=False` the per-run lookup sees only pre-run rows,
so a valid payload containing the same name twice produces two pending
inserts; the case-sensitive unique constraint on `name` is violated at
commit and the whole refresh fails with a full rollback and the generic
internal failure — the loop state after processing shows both records
pending as inserts, the commit check rejects them, and the refresh
returns the internal failure with the state unchanged. -/
theorem C10_duplicate_names_fail_commit :
    runLoop (.mapping []) 5 sampleMult 0 ⟨[], [], 0⟩
        [sampleNoCur "France" "A", sampleNoCur "France" "B"] =
      .ok ⟨[], [⟨"France", some "A", none, 0, none, none, some 0, none, 5⟩,
                ⟨"France", some "B", none, 0, none, none, some 0, none, 5⟩], 2⟩ ∧
    insertsOk [] [⟨"France", some "A", none, 0, none, none, some 0, none, 5⟩,
                  ⟨"France", some "B", none, 0, none, none, some 0, none, 5⟩] = false ∧
    refresh_countries ⟨[], none⟩ true [sampleNoCur "France" "A", sampleNoCur "France" "B"]
      true (.dict (some (.mapping []))) sampleMult 5 = (.internalError, ⟨[], none⟩) :=
  ⟨rfl, rfl, rfl⟩

/-! ### Helper lemmas for single-record refreshes -/

theorem findCi_none_mem {key : String} {l : List Country}
    (h : findCi key l = none) : ∀ r ∈ l, ciKey r.name ≠ key := by
  induction l with
  | nil => intro r hr; exact absurd hr (by simp)
  | cons r rest ih =>
    unfold findCi at h
    by_cases hk : ciKey r.name = key
    · rw [if_pos hk] at h; exact absurd h (by simp)
    · rw [if_neg hk] at h
      intro x hx
      rcases List.mem_cons.mp hx with hx | hx
      · subst hx; exact hk
      · exact ih h x hx

theorem containsName_false_of_no_ci {db : List Country} {n : String}
    (h : ∀ r ∈ db, ciKey r.name ≠ ciKey n) : containsName db n = false := by
  unfold containsName
  rw [List.any_eq_false]
  intro r hr
  simp only [decide_eq_true_eq]
  intro heq
  exact h r hr (by rw [heq])

/-- A refresh whose payload is a single record that matches no committed
row case-insensitively appends exactly one new row. -/
theorem refresh_single_insert {rv : RatesVal} {c : CountryRecord} {n : String}
    {cand : Candidate} {rd : RatesData} {mult : Nat → Nat}
    (db : List Country) (meta : Option String) (now : Nat)
    (hrd : getRates rd = some rv)
    (hmk : mkCandidate rv (mult 0) c = .ok (some (n, cand)))
    (hfind : findCi (ciKey n) db = none) :
    refresh_countries ⟨db, meta⟩ true [c] true rd mult now =
      (.ok 1 (isoformat now), ⟨db ++ [newCountry n cand now], some (isoformat now)⟩) := by
  have hap : applyFirst (ciKey n) (fun r => overwrite r cand now) db = none :=
    applyFirst_none_iff_findCi.mpr hfind
  have hcn : containsName db (newCountry n cand now).name = false :=
    containsName_false_of_no_ci (findCi_none_mem hfind)
  have hins : insertsOk db [newCountry n cand now] = true := by
    unfold insertsOk
    rw [hcn]
    rfl
  unfold refresh_countries writePhase runLoop runLoop step
  simp [hrd, hmk, hap, hins]

/-- A refresh whose payload is a single record that matches a committed
row case-insensitively updates that row in place. -/
theorem refresh_single_update {rv : RatesVal} {c : CountryRecord} {n : String}
    {cand : Candidate} {rd : RatesData} {mult : Nat → Nat}
    {db db' : List Country} (meta : Option String) (now : Nat)
    (hrd : getRates rd = some rv)
    (hmk : mkCandidate rv (mult 0) c = .ok (some (n, cand)))
    (hap : applyFirst (ciKey n) (fun r => overwrite r cand now) db = some db') :
    refresh_countries ⟨db, meta⟩ true [c] true rd mult now =
      (.ok 1 (isoformat now), ⟨db', some (isoformat now)⟩) := by
  unfold refresh_countries writePhase runLoop runLoop step
  simp [hrd, hmk, hap, insertsOk]

/-! ### Evaluation of `mkCandidate` per derivation branch -/

theorem mkCandidate_mapping_some (rm : List (String × RateEntry)) (m : Nat)
    {c : CountryRecord} {n : String} (hn : c.name = some n) (hne : n ≠ "") :
    ∃ cand, mkCandidate (.mapping rm) m c = .ok (some (n, cand)) := by
  unfold mkCandidate
  rw [hn]
  simp only [hne, if_false]
  split
  · exact ⟨_, rfl⟩
  split
  · exact ⟨_, rfl⟩
  split
  · exact ⟨_, rfl⟩
  split
  · exact ⟨_, rfl⟩
  · exact ⟨_, rfl⟩

theorem mkCandidate_no_currencies (rv : RatesVal) (m : Nat) {c : CountryRecord} {n : String}
    (hn : c.name = some n) (hne : n ≠ "") (hcur : c.currencies.getD [] = []) :
    mkCandidate rv m c = .ok (some (n,
      ⟨c.capital, c.region, c.population.getD 0, none, none, some 0, c.flag⟩)) := by
  unfold mkCandidate
  rw [hn]
  simp only [hne, if_false, hcur]

theorem mkCandidate_code_missing (rv : RatesVal) (m : Nat) {c : CountryRecord} {n : String}
    {f : Option Currency} {rest : List (Option Currency)}
    (hn : c.name = some n) (hne : n ≠ "") (hcur : c.currencies.getD [] = f :: rest)
    (hcode : falsyStr (f.getD {}).code = true) :
    mkCandidate rv m c = .ok (some (n,
      ⟨c.capital, c.region, c.population.getD 0, (f.getD {}).code, none, some 0, c.flag⟩)) := by
  unfold mkCandidate
  rw [hn]
  simp only [hne, if_false, hcur]
  unfold falsyStr at hcode
  cases hc : (f.getD {}).code with
  | none => simp only [hc]
  | some s =>
    rw [hc] at hcode
    simp only [decide_eq_true_eq] at hcode
    simp only [hc, hcode, if_true]

theorem mkCandidate_rate_missing {rm : List (String × RateEntry)} {m : Nat}
    {c : CountryRecord} {n s : String}
    {f : Option Currency} {rest : List (Option Currency)}
    (hn : c.name = some n) (hne : n ≠ "") (hcur : c.currencies.getD [] = f :: rest)
    (hcode : (f.getD {}).code = some s) (hs : s ≠ "")
    (hlk : lookupRate rm s = none) :
    mkCandidate (.mapping rm) m c = .ok (some (n,
      ⟨c.capital, c.region, c.population.getD 0, some s, none, none, c.flag⟩)) := by
  unfold mkCandidate
  rw [hn]
  simp only [hne, if_false, hcur, hcode, hs, hlk]

theorem mkCandidate_rate_found {rm : List (String × RateEntry)} {m : Nat}
    {c : CountryRecord} {n s : String} {q : ℚ}
    {f : Option Currency} {rest : List (Option Currency)}
    (hn : c.name = some n) (hne : n ≠ "") (hcur : c.currencies.getD [] = f :: rest)
    (hcode : (f.getD {}).code = some s) (hs : s ≠ "")
    (hlk : lookupRate rm s = some (.num q)) (hq : q ≠ 0) :
    mkCandidate (.mapping rm) m c = .ok (some (n,
      ⟨c.capital, c.region, c.population.getD 0, some s, some (.num q),
       some ((c.population.getD 0 : ℚ) * (m : ℚ) / q), c.flag⟩)) := by
  unfold mkCandidate
  rw [hn]
  simp only [hne, if_false, hcur, hcode, hs, hlk, hq]

/-- C1: for a refresh with valid fetch results and a named source record,
the persisted row follows the null/zero policy: no currencies listed gives
`currency_code = null`, `exchange_rate = null`, `estimated_gdp = 0`; a
first currency descriptor with a falsy code gives `exchange_rate = null`,
`estimated_gdp = 0`; a code with no entry in the rate map gives
`exchange_rate = null`, `estimated_gdp = null`. -/
theorem C1_null_zero_policy (rd : RatesData) (rm : List (String × RateEntry))
    (c : CountryRecord) (n : String) (mult : Nat → Nat) (t : Nat) (meta : Option String)
    (hrd : getRates rd = some (.mapping rm)) (hn : c.name = some n) (hne : n ≠ "") :
    ∃ r, (refresh_countries ⟨[], meta⟩ true [c] true rd mult t).2.countries = [r] ∧
      (c.currencies.getD [] = [] →
        r.currency_code = none ∧ r.exchange_rate = none ∧ r.estimated_gdp = some 0) ∧
      (∀ f rest, c.currencies.getD [] = f :: rest → falsyStr (f.getD {}).code = true →
        r.exchange_rate = none ∧ r.estimated_gdp = some 0) ∧
      (∀ f rest s, c.currencies.getD [] = f :: rest → (f.getD {}).code = some s → s ≠ "" →
        lookupRate rm s = none → r.exchange_rate = none ∧ r.estimated_gdp = none) := by
  obtain ⟨cand, hmk⟩ := mkCandidate_mapping_some rm (mult 0) hn hne
  have href := refresh_single_insert [] meta t hrd hmk rfl
  refine ⟨newCountry n cand t, by rw [href]; rfl, ?_, ?_, ?_⟩
  · intro hcur
    have he := mkCandidate_no_currencies (RatesVal.mapping rm) (mult 0) hn hne hcur
    rw [hmk] at he
    simp only [Except.ok.injEq, Option.some.injEq, Prod.mk.injEq] at he
    obtain ⟨-, hc⟩ := he
    subst hc
    exact ⟨rfl, rfl, rfl⟩
  · intro f rest hcur hcode
    have he := mkCandidate_code_missing (RatesVal.mapping rm) (mult 0) hn hne hcur hcode
    rw [hmk] at he
    simp only [Except.ok.injEq, Option.some.injEq, Prod.mk.injEq] at he
    obtain ⟨-, hc⟩ := he
    subst hc
    exact ⟨rfl, rfl⟩
  · intro f rest s hcur hcode hs hlk
    have he := mkCandidate_rate_missing (m := mult 0) hn hne hcur hcode hs hlk
    rw [hmk] at he
    simp only [Except.ok.injEq, Option.some.injEq, Prod.mk.injEq] at he
    obtain ⟨-, hc⟩ := he
    subst hc
    exact ⟨rfl, rfl⟩

/-- Witness for C1 at a concrete input (a named record with no currency
data; the single persisted row gets `currency_code = none`,
`exchange_rate = none`, `estimated_gdp = 0`). -/
theorem C1_null_zero_policy_witness :
    ∃ r, (refresh_countries ⟨[], none⟩ true [{ name := some "Foo" }] true
        (.dict (some (.mapping []))) sampleMult 0).2.countries = [r] ∧
      (({ name := some "Foo" } : CountryRecord).currencies.getD [] = [] →
        r.currency_code = none ∧ r.exchange_rate = none ∧ r.estimated_gdp = some 0) ∧
      (∀ f rest, ({ name := some "Foo" } : CountryRecord).currencies.getD [] = f :: rest →
        falsyStr (f.getD {}).code = true →
        r.exchange_rate = none ∧ r.estimated_gdp = some 0) ∧
      (∀ f rest s, ({ name := some "Foo" } : CountryRecord).currencies.getD [] = f :: rest →
        (f.getD {}).code = some s → s ≠ "" → lookupRate [] s = none →
        r.exchange_rate = none ∧ r.estimated_gdp = none) :=
  C1_null_zero_policy (.dict (some (.mapping []))) [] { name := some "Foo" } "Foo"
    sampleMult 0 none rfl rfl (by decide)

/-- C2: for a named record whose first-currency code has a positive
numeric rate `q` in the map, and a multiplier oracle confined to
`[1000, 2000]` as `random.randint(1000, 2000)` is, the persisted
`estimated_gdp` equals `population * k / q` for an integer
`k ∈ [1000, 2000]`, and hence lies in the inclusive interval
`[population*1000/q, population*2000/q]`. -/
theorem C2_gdp_bounds (rd : RatesData) (rm : List (String × RateEntry))
    (c : CountryRecord) (n s : String) (q : ℚ) (f : Option Currency)
    (rest : List (Option Currency)) (mult : Nat → Nat) (t : Nat) (meta : Option String)
    (hrd : getRates rd = some (.mapping rm)) (hn : c.name = some n) (hne : n ≠ "")
    (hcur : c.currencies.getD [] = f :: rest)
    (hcode : (f.getD {}).code = some s) (hs : s ≠ "")
    (hlk : lookupRate rm s = some (.num q)) (hq : 0 < q)
    (hm1 : 1000 ≤ mult 0) (hm2 : mult 0 ≤ 2000) :
    ∃ r, (refresh_countries ⟨[], meta⟩ true [c] true rd mult t).2.countries = [r] ∧
      ∃ k : Nat, 1000 ≤ k ∧ k ≤ 2000 ∧
        r.estimated_gdp = some ((c.population.getD 0 : ℚ) * (k : ℚ) / q) ∧
        (c.population.getD 0 : ℚ) * 1000 / q ≤ (c.population.getD 0 : ℚ) * (k : ℚ) / q ∧
        (c.population.getD 0 : ℚ) * (k : ℚ) / q ≤ (c.population.getD 0 : ℚ) * 2000 / q := by
  have hmk := mkCandidate_rate_found (m := mult 0) hn hne hcur hcode hs hlk (ne_of_gt hq)
  have href := refresh_single_insert [] meta t hrd hmk rfl
  refine ⟨newCountry n ⟨c.capital, c.region, c.population.getD 0, some s, some (.num q),
    some ((c.population.getD 0 : ℚ) * ((mult 0 : Nat) : ℚ) / q), c.flag⟩ t,
    by rw [href]; rfl, mult 0, hm1, hm2, rfl, ?_, ?_⟩
  · rw [div_le_div_iff_of_pos_right hq]
    exact mul_le_mul_of_nonneg_left (by exact_mod_cast hm1) (by positivity)
  · rw [div_le_div_iff_of_pos_right hq]
    exact mul_le_mul_of_nonneg_left (by exact_mod_cast hm2) (by positivity)

/-- Witness for C2 at the spec's own scenario: `Foo`, population 100,
code `XYZ`, rate 2; the multiplier is 1000 and the stored estimate
100*1000/2 = 50000 lies in the inclusive bounds. -/
theorem C2_gdp_bounds_witness :
    ∃ r, (refresh_countries ⟨[], none⟩ true
        [{ name := some "Foo", population := some 100,
           currencies := some [some { code := some "XYZ" }] }] true
        (.dict (some (.mapping [("XYZ", .num 2)]))) sampleMult 0).2.countries = [r] ∧
      ∃ k : Nat, 1000 ≤ k ∧ k ≤ 2000 ∧
        r.estimated_gdp = some ((({ name := some "Foo", population := some 100,
                                    currencies := some [some { code := some "XYZ" }] } :
             CountryRecord).population.getD 0 : ℚ) * (k : ℚ) / 2) ∧
        ((100 : ℚ)) * 1000 / 2 ≤ ((100 : ℚ)) * (k : ℚ) / 2 ∧
        ((100 : ℚ)) * (k : ℚ) / 2 ≤ ((100 : ℚ)) * 2000 / 2 :=
  C2_gdp_bounds (.dict (some (.mapping [("XYZ", .num 2)]))) [("XYZ", .num 2)]
    { name := some "Foo", population := some 100,
      currencies := some [some { code := some "XYZ" }] } "Foo" "XYZ" 2
    (some { code := some "XYZ" }) [] sampleMult 0 none
    rfl rfl (by decide) rfl rfl (by decide) rfl (by norm_num) (by decide) (by decide)

/-- C6: a country refreshed under one casing and then re-refreshed under
another casing resolves to a single row: the second run overwrites the
existing row in place — all derived/source fields and the timestamp come
from the second record, while the stored name keeps the first run's
casing — instead of inserting a second row. -/
theorem C6_case_insensitive_upsert (rd : RatesData) (rv : RatesVal)
    (r1 r2 : CountryRecord) (n1 n2 : String) (cand1 cand2 : Candidate)
    (m1 m2 : Nat → Nat) (t1 t2 : Nat) (meta : Option String)
    (hrd : getRates rd = some rv)
    (hmk1 : mkCandidate rv (m1 0) r1 = .ok (some (n1, cand1)))
    (hmk2 : mkCandidate rv (m2 0) r2 = .ok (some (n2, cand2)))
    (hci : ciKey n1 = ciKey n2) :
    refresh_countries ⟨[], meta⟩ true [r1] true rd m1 t1 =
      (.ok 1 (isoformat t1), ⟨[newCountry n1 cand1 t1], some (isoformat t1)⟩) ∧
    refresh_countries ⟨[newCountry n1 cand1 t1], some (isoformat t1)⟩ true [r2] true rd m2 t2 =
      (.ok 1 (isoformat t2),
       ⟨[overwrite (newCountry n1 cand1 t1) cand2 t2], some (isoformat t2)⟩) ∧
    (overwrite (newCountry n1 cand1 t1) cand2 t2).name = n1 ∧
    (overwrite (newCountry n1 cand1 t1) cand2 t2).capital = cand2.capital ∧
    (overwrite (newCountry n1 cand1 t1) cand2 t2).region = cand2.region ∧
    (overwrite (newCountry n1 cand1 t1) cand2 t2).population = cand2.population ∧
    (overwrite (newCountry n1 cand1 t1) cand2 t2).currency_code = cand2.currency_code ∧
    (overwrite (newCountry n1 cand1 t1) cand2 t2).exchange_rate = cand2.exchange_rate ∧
    (overwrite (newCountry n1 cand1 t1) cand2 t2).estimated_gdp = cand2.estimated_gdp ∧
    (overwrite (newCountry n1 cand1 t1) cand2 t2).last_refreshed_at = t2 := by
  have h1 := refresh_single_insert [] meta t1 hrd hmk1 rfl
  have hap : applyFirst (ciKey n2) (fun r => overwrite r cand2 t2) [newCountry n1 cand1 t1] =
      some [overwrite (newCountry n1 cand1 t1) cand2 t2] := by
    have hname : ciKey (newCountry n1 cand1 t1).name = ciKey n2 := hci
    unfold applyFirst
    rw [if_pos hname]
  have h2 := refresh_single_update (some (isoformat t1)) t2 hrd hmk2 hap
  exact ⟨h1, h2, rfl, rfl, rfl, rfl, rfl, rfl, rfl, rfl⟩

/-- Witness for C6 at the spec's own scenario: `"France"` then
`"france"`. -/
theorem C6_case_insensitive_upsert_witness :
    refresh_countries ⟨[], none⟩ true [sampleNoCur "France" "A"] true
      (.dict (some (.mapping []))) sampleMult 0 =
      (.ok 1 (isoformat 0),
       ⟨[newCountry "France" ⟨some "A", none, 0, none, none, some 0, none⟩ 0],
        some (isoformat 0)⟩) ∧
    refresh_countries
      ⟨[newCountry "France" ⟨some "A", none, 0, none, none, some 0, none⟩ 0],
       some (isoformat 0)⟩ true [sampleNoCur "france" "B"] true
      (.dict (some (.mapping []))) sampleMult 1 =
      (.ok 1 (isoformat 1),
       ⟨[overwrite (newCountry "France" ⟨some "A", none, 0, none, none, some 0, none⟩ 0)
          ⟨some "B", none, 0, none, none, some 0, none⟩ 1], some (isoformat 1)⟩) ∧
    (overwrite (newCountry "France" ⟨some "A", none, 0, none, none, some 0, none⟩ 0)
      ⟨some "B", none, 0, none, none, some 0, none⟩ 1).name = "France" ∧
    (overwrite (newCountry "France" ⟨some "A", none, 0, none, none, some 0, none⟩ 0)
      ⟨some "B", none, 0, none, none, some 0, none⟩ 1).capital =
        (⟨some "B", none, 0, none, none, some 0, none⟩ : Candidate).capital ∧
    (overwrite (newCountry "France" ⟨some "A", none, 0, none, none, some 0, none⟩ 0)
      ⟨some "B", none, 0, none, none, some 0, none⟩ 1).region =
        (⟨some "B", none, 0, none, none, some 0, none⟩ : Candidate).region ∧
    (overwrite (newCountry "France" ⟨some "A", none, 0, none, none, some 0, none⟩ 0)
      ⟨some "B", none, 0, none, none, some 0, none⟩ 1).population =
        (⟨some "B", none, 0, none, none, some 0, none⟩ : Candidate).population ∧
    (overwrite (newCountry "France" ⟨some "A", none, 0, none, none, some 0, none⟩ 0)
      ⟨some "B", none, 0, none, none, some 0, none⟩ 1).currency_code =
        (⟨some "B", none, 0, none, none, some 0, none⟩ : Candidate).currency_code ∧
    (overwrite (newCountry "France" ⟨some "A", none, 0, none, none, some 0, none⟩ 0)
      ⟨some "B", none, 0, none, none, some 0, none⟩ 1).exchange_rate =
        (⟨some "B", none, 0, none, none, some 0, none⟩ : Candidate).exchange_rate ∧
    (overwrite (newCountry "France" ⟨some "A", none, 0, none, none, some 0, none⟩ 0)
      ⟨some "B", none, 0, none, none, some 0, none⟩ 1).estimated_gdp =
        (⟨some "B", none, 0, none, none, some 0, none⟩ : Candidate).estimated_gdp ∧
    (overwrite (newCountry "France" ⟨some "A", none, 0, none, none, some 0, none⟩ 0)
      ⟨some "B", none, 0, none, none, some 0, none⟩ 1).last_refreshed_at = 1 :=
  C6_case_insensitive_upsert (.dict (some (.mapping []))) (.mapping [])
    (sampleNoCur "France" "A") (sampleNoCur "france" "B") "France" "france"
    ⟨some "A", none, 0, none, none, some 0, none⟩
    ⟨some "B", none, 0, none, none, some 0, none⟩
    sampleMult sampleMult 0 1 none rfl rfl rfl (by decide)

/-! ### The multiplier only affects `estimated_gdp` -/

theorem mkCandidate_error_indep {rv : RatesVal} {m : Nat} {c : CountryRecord}
    (h : mkCandidate rv m c = .error ()) (m' : Nat) :
    mkCandidate rv m' c = .error () := by
  unfold mkCandidate at h ⊢
  repeat' split at h
  all_goals simp_all

theorem mkCandidate_some_indep {rv : RatesVal} {m : Nat} {c : CountryRecord}
    {n : String} {cand : Candidate}
    (h : mkCandidate rv m c = .ok (some (n, cand))) (m' : Nat) :
    ∃ cand', mkCandidate rv m' c = .ok (some (n, cand')) ∧ candSig cand' = candSig cand := by
  unfold mkCandidate at h ⊢
  repeat' split at h
  all_goals (try (exfalso; simp_all; done))
  all_goals
    simp only [Except.ok.injEq, Option.some.injEq, Prod.mk.injEq] at h
  all_goals
    obtain ⟨h1, h2⟩ := h
  all_goals
    subst h1
  all_goals
    subst h2
  all_goals
    simp_all [candSig]

theorem runLoop_no_error {rv : RatesVal} {now : Nat} {mult : Nat → Nat}
    {cs : List CountryRecord} {i : Nat} {st st' : RunState}
    (h : runLoop rv now mult i st cs = .ok st') :
    ∀ c ∈ cs, ∀ m', mkCandidate rv m' c ≠ .error () := by
  induction cs generalizing i st with
  | nil => intro c hc; exact absurd hc (by simp)
  | cons c0 cs ih =>
    unfold runLoop at h
    cases hstep : step rv now (mult i) st c0 with
    | error e => rw [hstep] at h; exact absurd h (by simp)
    | ok st1 =>
      rw [hstep] at h
      intro c hc m'
      rcases List.mem_cons.mp hc with rfl | hc
      · intro herr
        have herr0 := mkCandidate_error_indep herr (mult i)
        unfold step at hstep
        rw [herr0] at hstep
        exact absurd hstep (by simp)
      · exact ih h c hc m'

/-! ### `findCi` and `applyFirst` under signature-preserving changes -/

theorem applyFirst_some_of_findCi {key : String} {g : Country → Country}
    {l : List Country} {r : Country} (h : findCi key l = some r) :
    ∃ l', applyFirst key g l = some l' := by
  cases hap : applyFirst key g l with
  | some l' => exact ⟨l', rfl⟩
  | none =>
    rw [applyFirst_none_iff_findCi.mp hap] at h
    exact absurd h (by simp)

theorem sig_overwrite (r : Country) (cand : Candidate) (now : Nat)
    (h : (r.capital, r.region, r.population, r.currency_code) = candSig cand) :
    sig (overwrite r cand now) = sig r := by
  unfold candSig at h
  simp only [Prod.mk.injEq] at h
  obtain ⟨h1, h2, h3, h4⟩ := h
  unfold sig overwrite
  simp [h1, h2, h3, h4]

theorem applyFirst_sig_preserved {key : String} {cand : Candidate} {now : Nat}
    {l l' : List Country} {r : Country}
    (hap : applyFirst key (fun x => overwrite x cand now) l = some l')
    (hfind : findCi key l = some r)
    (hfields : (r.capital, r.region, r.population, r.currency_code) = candSig cand) :
    l'.map sig = l.map sig := by
  induction l generalizing l' with
  | nil => exact absurd hfind (by simp [findCi])
  | cons x rest ih =>
    unfold applyFirst at hap
    unfold findCi at hfind
    by_cases hk : ciKey x.name = key
    · rw [if_pos hk] at hap hfind
      injection hap with hap
      injection hfind with hfind
      subst hap
      subst hfind
      simp [sig_overwrite x cand now hfields]
    · rw [if_neg hk] at hap hfind
      cases hrec : applyFirst key (fun x => overwrite x cand now) rest with
      | none => rw [hrec] at hap; exact absurd hap (by simp)
      | some rest' =>
        rw [hrec] at hap
        injection hap with hap
        subst hap
        simp [ih hrec hfind]

theorem findCi_map_sig (key : String) {l l' : List Country}
    (h : l.map sig = l'.map sig) :
    Option.map sig (findCi key l) = Option.map sig (findCi key l') := by
  induction l generalizing l' with
  | nil =>
    cases l' with
    | nil => rfl
    | cons r' rest' => exact absurd h (by simp)
  | cons r rest ih =>
    cases l' with
    | nil => exact absurd h (by simp)
    | cons r' rest' =>
      simp only [List.map_cons, List.cons.injEq] at h
      obtain ⟨h1, h2⟩ := h
      have hname : r.name = r'.name := congrArg (fun z => z.1) h1
      unfold findCi
      by_cases hk : ciKey r.name = key
      · rw [if_pos hk, if_pos (by rw [← hname]; exact hk)]
        simp [h1]
      · rw [if_neg hk, if_neg (by rw [← hname]; exact hk)]
        exact ih h2

theorem findCi_applyFirst_other {key altKey : String} {g : Country → Country}
    {l l' : List Country}
    (hap : applyFirst altKey g l = some l') (hk : altKey ≠ key)
    (hg : ∀ x, (g x).name = x.name) :
    findCi key l' = findCi key l := by
  induction l generalizing l' with
  | nil => exact absurd hap (by simp [applyFirst])
  | cons x rest ih =>
    unfold applyFirst at hap
    by_cases hx : ciKey x.name = altKey
    · rw [if_pos hx] at hap
      injection hap with hap
      subst hap
      have hxk : ¬ ciKey x.name = key := by rw [hx]; exact hk
      unfold findCi
      rw [hg]
      simp only [if_neg hxk]
    · rw [if_neg hx] at hap
      cases hrec : applyFirst altKey g rest with
      | none => rw [hrec] at hap; exact absurd hap (by simp)
      | some rest' =>
        rw [hrec] at hap
        injection hap with hap
        subst hap
        unfold findCi
        rw [ih hrec]

/-! ### Run-level lemmas for idempotence -/

theorem mem_namesCi {cs : List CountryRecord} {c : CountryRecord} {n : String}
    (hc : c ∈ cs) (hn : recName c = some n) : ciKey n ∈ namesCi cs := by
  induction cs with
  | nil => exact absurd hc (by simp)
  | cons c0 cs ih =>
    rcases List.mem_cons.mp hc with rfl | hc
    · unfold namesCi
      rw [hn]
      exact List.mem_cons_self _ _
    · unfold namesCi
      cases hr : recName c0 with
      | none => exact ih hc
      | some n0 => exact List.mem_cons_of_mem _ (ih hc)

/-- Records whose (truthy) names all differ case-insensitively from `key`
leave the first-`key`-match unchanged across the rest of a run. -/
theorem runLoop_preserve_findCi {rv : RatesVal} {now : Nat} {mult : Nat → Nat} {key : String}
    {cs : List CountryRecord} {i : Nat} {st st' : RunState}
    (h : runLoop rv now mult i st cs = .ok st')
    (hk : ∀ c ∈ cs, ∀ n, recName c = some n → ciKey n ≠ key) :
    findCi key (st'.cur ++ st'.inserts) = findCi key (st.cur ++ st.inserts) := by
  induction cs generalizing i st with
  | nil =>
    unfold runLoop at h
    injection h with h
    subst h
    rfl
  | cons c0 cs ih =>
    unfold runLoop at h
    cases hstep : step rv now (mult i) st c0 with
    | error e => rw [hstep] at h; exact absurd h (by simp)
    | ok st1 =>
      rw [hstep] at h
      have hrest := ih h (fun c hc n hn => hk c (List.mem_cons_of_mem _ hc) n hn)
      rw [hrest]
      unfold step at hstep
      cases hmk : mkCandidate rv (mult i) c0 with
      | error e => rw [hmk] at hstep; exact absurd hstep (by simp)
      | ok o =>
        rw [hmk] at hstep
        cases o with
        | none =>
          simp only at hstep
          injection hstep with hstep
          subst hstep
          rfl
        | some x =>
          obtain ⟨n, cand⟩ := x
          have hne : ciKey n ≠ key := hk c0 (by simp) n (mkCandidate_ok_some_recName hmk)
          simp only at hstep
          cases hap : applyFirst (ciKey n) (fun r => overwrite r cand now) st.cur with
          | some cur' =>
            rw [hap] at hstep
            injection hstep with hstep
            subst hstep
            simp only
            rw [findCi_append, findCi_append,
              findCi_applyFirst_other hap hne (fun x => rfl)]
          | none =>
            rw [hap] at hstep
            injection hstep with hstep
            subst hstep
            simp only
            rw [findCi_append, findCi_append, findCi_append]
            have hnew : findCi key [newCountry n cand now] = none := by
              unfold findCi
              rw [if_neg (by exact hne)]
              rfl
            rw [hnew]
            cases findCi key st.inserts <;> simp [Option.or]

theorem namesCi_cons (c : CountryRecord) (cs : List CountryRecord) :
    namesCi (c :: cs) =
      match recName c with
      | some n => ciKey n :: namesCi cs
      | none => namesCi cs := rfl

theorem runLoop_cons (rv : RatesVal) (now : Nat) (mult : Nat → Nat) (i : Nat)
    (st : RunState) (c : CountryRecord) (cs : List CountryRecord) :
    runLoop rv now mult i st (c :: cs) =
      match step rv now (mult i) st c with
      | .error _ => .error ()
      | .ok st1 => runLoop rv now mult (i + 1) st1 cs := rfl

/-- A run in which every record finds a case-insensitive match carrying
its own (multiplier-independent) candidate columns performs only in-place
updates: no inserts, and the name/capital/region/population/currency
columns of the table are unchanged. -/
theorem runLoop_update_only (now : Nat) (mult : Nat → Nat) (i : Nat)
    {rv : RatesVal} {cs : List CountryRecord} {st : RunState} {base : List Country}
    (hbase : st.cur.map sig = base.map sig)
    (hne : ∀ c ∈ cs, ∀ m', mkCandidate rv m' c ≠ .error ())
    (hready : ∀ c ∈ cs, ∀ m' n cand, mkCandidate rv m' c = .ok (some (n, cand)) →
      ∃ r, findCi (ciKey n) base = some r ∧
        (r.capital, r.region, r.population, r.currency_code) = candSig cand) :
    ∃ st', runLoop rv now mult i st cs = .ok st' ∧
      st'.cur.map sig = base.map sig ∧ st'.inserts = st.inserts := by
  induction cs generalizing i st with
  | nil => exact ⟨st, rfl, hbase, rfl⟩
  | cons c0 cs ih =>
    have hne' : ∀ c ∈ cs, ∀ m', mkCandidate rv m' c ≠ .error () :=
      fun c hc => hne c (List.mem_cons_of_mem _ hc)
    have hready' : ∀ c ∈ cs, ∀ m' n cand, mkCandidate rv m' c = .ok (some (n, cand)) →
        ∃ r, findCi (ciKey n) base = some r ∧
          (r.capital, r.region, r.population, r.currency_code) = candSig cand :=
      fun c hc => hready c (List.mem_cons_of_mem _ hc)
    cases hmk : mkCandidate rv (mult i) c0 with
    | error e =>
      cases e
      exact absurd hmk (hne c0 (by simp) (mult i))
    | ok o =>
      cases o with
      | none =>
        have hstep : step rv now (mult i) st c0 = .ok st := by
          unfold step
          rw [hmk]
        obtain ⟨st', hr, hs, hi⟩ := ih (i + 1) hbase hne' hready'
        refine ⟨st', ?_, hs, hi⟩
        rw [runLoop_cons, hstep]
        exact hr
      | some x =>
        obtain ⟨n, cand⟩ := x
        obtain ⟨r, hfind, hfields⟩ := hready c0 (by simp) (mult i) n cand hmk
        have hmap := findCi_map_sig (ciKey n) hbase
        rw [hfind] at hmap
        cases hf2 : findCi (ciKey n) st.cur with
        | none => rw [hf2] at hmap; exact absurd hmap (by simp)
        | some r2 =>
          rw [hf2] at hmap
          simp only [Option.map_some', Option.some.injEq] at hmap
          have hfields2 : (r2.capital, r2.region, r2.population, r2.currency_code) =
              candSig cand := by
            unfold sig at hmap
            simp only [Prod.mk.injEq] at hmap
            obtain ⟨-, h2, h3, h4, h5⟩ := hmap
            rw [h2, h3, h4, h5]
            exact hfields
          obtain ⟨cur', hap⟩ :=
            applyFirst_some_of_findCi (g := fun x => overwrite x cand now) hf2
          have hsig' : cur'.map sig = st.cur.map sig :=
            applyFirst_sig_preserved hap hf2 hfields2
          have hstep : step rv now (mult i) st c0 =
              .ok ⟨cur', st.inserts, st.processed + 1⟩ := by
            unfold step
            rw [hmk]
            simp only
            rw [hap]
          obtain ⟨st', hr, hs, hi⟩ :=
            ih (i + 1)
              (show (⟨cur', st.inserts, st.processed + 1⟩ : RunState).cur.map sig =
                  base.map sig from hsig'.trans hbase)
              hne' hready'
          refine ⟨st', ?_, hs, hi⟩
          rw [runLoop_cons, hstep]
          exact hr

/-- After a successful run over records with pairwise case-insensitively
distinct truthy names, every record's name finds — in the final table —
a first case-insensitive match carrying that record's
(multiplier-independent) candidate columns. -/
theorem runLoop_seed {rv : RatesVal} {now : Nat} {mult : Nat → Nat}
    {cs : List CountryRecord} {i : Nat} {st st' : RunState}
    (h : runLoop rv now mult i st cs = .ok st')
    (hdist : (namesCi cs).Nodup)
    (hins : ∀ r ∈ st.inserts, ∀ nn ∈ namesCi cs, ciKey r.name ≠ nn) :
    ∀ c ∈ cs, ∀ m' n cand, mkCandidate rv m' c = .ok (some (n, cand)) →
      ∃ r, findCi (ciKey n) (st'.cur ++ st'.inserts) = some r ∧
        (r.capital, r.region, r.population, r.currency_code) = candSig cand := by
  induction cs generalizing i st with
  | nil => intro c hc; exact absurd hc (by simp)
  | cons c0 cs ih =>
    rw [runLoop_cons] at h
    cases hstep : step rv now (mult i) st c0 with
    | error e => rw [hstep] at h; exact absurd h (by simp)
    | ok st1 =>
      rw [hstep] at h
      unfold step at hstep
      cases hmk0 : mkCandidate rv (mult i) c0 with
      | error e => rw [hmk0] at hstep; exact absurd hstep (by simp)
      | ok o =>
        rw [hmk0] at hstep
        cases o with
        | none =>
          simp only at hstep
          injection hstep with hstep
          subst hstep
          have hskip : recName c0 = none := by
            have hh := mkCandidate_ok_none_hasName hmk0
            unfold hasName at hh
            unfold recName
            cases hn0 : c0.name with
            | none => rfl
            | some nn =>
              rw [hn0] at hh
              simp only [Bool.not_eq_false', decide_eq_true_eq] at hh
              simp [hh]
          have hnames : namesCi (c0 :: cs) = namesCi cs := by
            simp only [namesCi_cons, hskip]
          rw [hnames] at hdist hins
          intro c hc m' n cand hmk
          rcases List.mem_cons.mp hc with rfl | hc
          · have h1 := mkCandidate_ok_some_hasName hmk
            have h2 := mkCandidate_ok_none_hasName hmk0
            rw [h1] at h2
            exact absurd h2 (by simp)
          · exact ih h hdist hins c hc m' n cand hmk
        | some x =>
          obtain ⟨n0, cand0⟩ := x
          have hrec0 : recName c0 = some n0 := mkCandidate_ok_some_recName hmk0
          have hnames : namesCi (c0 :: cs) = ciKey n0 :: namesCi cs := by
            simp only [namesCi_cons, hrec0]
          rw [hnames] at hdist hins
          have hnotin : ciKey n0 ∉ namesCi cs := (List.nodup_cons.mp hdist).1
          have hdist' : (namesCi cs).Nodup := (List.nodup_cons.mp hdist).2
          have hkfun : ∀ c' ∈ cs, ∀ n', recName c' = some n' → ciKey n' ≠ ciKey n0 :=
            fun c' hc' n' hn' heq => hnotin (heq ▸ mem_namesCi hc' hn')
          simp only at hstep
          cases hap : applyFirst (ciKey n0) (fun r => overwrite r cand0 now) st.cur with
          | some cur' =>
            rw [hap] at hstep
            injection hstep with hstep
            subst hstep
            have hpres := runLoop_preserve_findCi h hkfun
            obtain ⟨rr, hfc, hfc'⟩ := applyFirst_findCi hap (fun x => rfl)
            intro c hc m' n cand hmk
            rcases List.mem_cons.mp hc with rfl | hc
            · have hrecc : recName c = some n := mkCandidate_ok_some_recName hmk
              rw [hrec0] at hrecc
              injection hrecc with hrecc
              subst hrecc
              obtain ⟨cand1, hmk1, hsig1⟩ := mkCandidate_some_indep hmk (mult i)
              rw [hmk0] at hmk1
              simp at hmk1
              subst hmk1
              refine ⟨overwrite rr cand0 now, ?_, ?_⟩
              · rw [hpres]
                show findCi (ciKey n0) (cur' ++ st.inserts) = some (overwrite rr cand0 now)
                rw [findCi_append, hfc']
                rfl
              · show (cand0.capital, cand0.region, cand0.population, cand0.currency_code) =
                  candSig cand
                exact hsig1
            · exact ih h hdist'
                (fun r hr nn hnn => hins r hr nn (List.mem_cons_of_mem _ hnn))
                c hc m' n cand hmk
          | none =>
            rw [hap] at hstep
            injection hstep with hstep
            subst hstep
            have hpres := runLoop_preserve_findCi h hkfun
            have hfindnone : findCi (ciKey n0) st.cur = none :=
              applyFirst_none_iff_findCi.mp hap
            have hinsnone : findCi (ciKey n0) st.inserts = none :=
              findCi_none_of_no_match
                (fun r hr => hins r hr (ciKey n0) (List.mem_cons_self _ _))
            intro c hc m' n cand hmk
            rcases List.mem_cons.mp hc with rfl | hc
            · have hrecc : recName c = some n := mkCandidate_ok_some_recName hmk
              rw [hrec0] at hrecc
              injection hrecc with hrecc
              subst hrecc
              obtain ⟨cand1, hmk1, hsig1⟩ := mkCandidate_some_indep hmk (mult i)
              rw [hmk0] at hmk1
              simp at hmk1
              subst hmk1
              refine ⟨newCountry n0 cand0 now, ?_, ?_⟩
              · rw [hpres]
                show findCi (ciKey n0) (st.cur ++ (st.inserts ++ [newCountry n0 cand0 now])) =
                  some (newCountry n0 cand0 now)
                rw [findCi_append, hfindnone, findCi_append, hinsnone]
                show findCi (ciKey n0) [newCountry n0 cand0 now] =
                  some (newCountry n0 cand0 now)
                unfold findCi
                rw [if_pos (by rfl)]
              · show (cand0.capital, cand0.region, cand0.population, cand0.currency_code) =
                  candSig cand
                exact hsig1
            · refine ih h hdist' ?_ c hc m' n cand hmk
              intro r hr nn hnn
              rcases List.mem_append.mp hr with hr | hr
              · exact hins r hr nn (List.mem_cons_of_mem _ hnn)
              · rcases List.mem_singleton.mp hr with rfl
                intro heq
                exact hnotin (heq ▸ hnn)

/-- Forward evaluation of a successful refresh from its stages. -/
theorem refresh_eval_ok (st : DBState) {cs : List CountryRecord} {rd : RatesData}
    {rv : RatesVal} {mult : Nat → Nat} {now : Nat} {stf : RunState}
    (hrd : getRates rd = some rv)
    (hrun : runLoop rv now mult 0 ⟨st.countries, [], 0⟩ cs = .ok stf)
    (hins : insertsOk stf.cur stf.inserts = true) :
    refresh_countries st true cs true rd mult now =
      (.ok stf.processed (isoformat now),
       ⟨stf.cur ++ stf.inserts, some (isoformat now)⟩) := by
  unfold refresh_countries writePhase
  simp [hrd, hrun, hins]

/-- C5 counterexample: the payload `[France/A, france/B]` (two records
whose names differ only in case) refreshed twice from an empty catalog
keeps the row count at 2 but changes the first row's `capital` from `A`
(run 1) to `B` (run 2), because in run 2 both records resolve to the row
`France` while the row `france` keeps its run-1 values — so "every row's
capital is the same after the second run" fails on identical payloads. -/
theorem C5_counterexample :
    refresh_countries ⟨[], none⟩ true [sampleNoCur "France" "A", sampleNoCur "france" "B"]
      true (.dict (some (.mapping []))) sampleMult 0 =
      (.ok 2 "0", ⟨[⟨"France", some "A", none, 0, none, none, some 0, none, 0⟩,
                    ⟨"france", some "B", none, 0, none, none, some 0, none, 0⟩], some "0"⟩) ∧
    refresh_countries ⟨[⟨"France", some "A", none, 0, none, none, some 0, none, 0⟩,
                        ⟨"france", some "B", none, 0, none, none, some 0, none, 0⟩], some "0"⟩
      true [sampleNoCur "France" "A", sampleNoCur "france" "B"]
      true (.dict (some (.mapping []))) sampleMult 1 =
      (.ok 2 "1", ⟨[⟨"France", some "B", none, 0, none, none, some 0, none, 1⟩,
                    ⟨"france", some "B", none, 0, none, none, some 0, none, 0⟩], some "1"⟩) ∧
    (some "A" : Option String) ≠ some "B" :=
  ⟨rfl, rfl, by decide⟩

/-- C5 (amended): refreshing twice with identical valid payloads yields
the same row count and the same name/capital/region/population/
currency_code per row, provided no two records of the payload carry
case-insensitively equal names (without that proviso the property fails,
see the counterexample: two same-cased-up records make the runs
non-idempotent on field values). -/
theorem C5_amended_idempotence (db : List Country) (meta : Option String)
    (cs : List CountryRecord) (rd : RatesData) (m1 m2 : Nat → Nat) (t1 t2 p1 : Nat)
    (s1 : String) (st1 : DBState)
    (hdist : (namesCi cs).Nodup)
    (h1 : refresh_countries ⟨db, meta⟩ true cs true rd m1 t1 = (.ok p1 s1, st1)) :
    ∃ p2 st2, refresh_countries st1 true cs true rd m2 t2 = (.ok p2 (isoformat t2), st2) ∧
      st2.countries.length = st1.countries.length ∧
      st2.countries.map sig = st1.countries.map sig := by
  obtain ⟨-, -, rv, stf, hrd, hrun, hinsok, -, -, hst⟩ := refresh_ok_inv h1
  subst hst
  have hne := runLoop_no_error hrun
  have hready := runLoop_seed hrun hdist (fun r hr => absurd hr (by simp))
  have hbase0 : (⟨stf.cur ++ stf.inserts, [], 0⟩ : RunState).cur.map sig =
      (stf.cur ++ stf.inserts).map sig := rfl
  obtain ⟨st2', hrun2, hsig2, hins2⟩ := runLoop_update_only t2 m2 0 hbase0 hne hready
  have hok2 : insertsOk st2'.cur st2'.inserts = true := by
    rw [hins2]
    rfl
  have h2 := refresh_eval_ok ⟨stf.cur ++ stf.inserts, some (isoformat t1)⟩ hrd hrun2 hok2
  refine ⟨st2'.processed, ⟨st2'.cur ++ st2'.inserts, some (isoformat t2)⟩, h2, ?_, ?_⟩
  · show (st2'.cur ++ st2'.inserts).length = (stf.cur ++ stf.inserts).length
    rw [hins2]
    have hlen := congrArg List.length hsig2
    simpa using hlen
  · show (st2'.cur ++ st2'.inserts).map sig = (stf.cur ++ stf.inserts).map sig
    rw [hins2]
    simpa using hsig2

/-- Witness for the amended C5 at a concrete input: a one-record payload
refreshed twice keeps one row with identical signature columns. -/
theorem C5_amended_idempotence_witness :
    ∃ p2 st2, refresh_countries
        ⟨[⟨"France", some "A", none, 0, none, none, some 0, none, 0⟩], some "0"⟩
        true [sampleNoCur "France" "A"] true (.dict (some (.mapping [])))
        sampleMult 1 = (.ok p2 (isoformat 1), st2) ∧
      st2.countries.length =
        (⟨[⟨"France", some "A", none, 0, none, none, some 0, none, 0⟩], some "0"⟩ :
          DBState).countries.length ∧
      st2.countries.map sig =
        (⟨[⟨"France", some "A", none, 0, none, none, some 0, none, 0⟩], some "0"⟩ :
          DBState).countries.map sig :=
  C5_amended_idempotence [] none [sampleNoCur "France" "A"]
    (.dict (some (.mapping []))) sampleMult sampleMult 0 1 1 "0"
    ⟨[⟨"France", some "A", none, 0, none, none, some 0, none, 0⟩], some "0"⟩
    (by decide) rfl
